import Mathlib

set_option maxHeartbeats 1000000

open scoped Matrix

/-!
Verification development for the `EI_subspace_RNN` fitting pipeline
(`EI_subspace_RNN.py`): sparse sign-constrained weight topology, the
weight vector / weight matrix codec, Kalman filter and smoother E-steps,
the M-step loss functions, the weight initializer and the EM driver.

All numeric code is embedded over `ℚ` (exact rational arithmetic standing
for the source's real-number semantics).  External collaborators that the
source imports but that are not part of the repository — the NumPy
pseudo-random stream, `np.linalg.pinv`, `utils.build_dynamics_matrix_A`
and `scipy.optimize.minimize` — are passed in as explicit parameters.
-/

/-- Sparse excitatory-inhibitory weight topology: unit counts, the declared
number of non-zero weights, and the list of flat (row-major) indices into the
`N × N` connectivity matrix that may hold non-zero weights.  Mirrors the
state built by `EI_subspace_RNN.__init__`. -/
structure EI_subspace_RNN where
  N_e : Nat
  N_i : Nat
  N_weights : Nat
  w_ind : List Nat
deriving DecidableEq

/-- Total number of units, `N = N_e + N_i`. -/
def EI_subspace_RNN.N (r : EI_subspace_RNN) : Nat := r.N_e + r.N_i

/-- Flat index stored at position `ind` of the topology list
(`self.w_ind[ind]` in the source). -/
def EI_subspace_RNN.wIndAt (r : EI_subspace_RNN) (ind : Nat) : Nat :=
  r.w_ind.getD ind 0

/-- The first `N_weights` stored flat indices in order: the values visited by
every `for ind in range(self.N_weights)` loop of the source. -/
def EI_subspace_RNN.w_ind_listed (r : EI_subspace_RNN) : List Nat :=
  (List.range r.N_weights).map r.wIndAt

/-- Excitatory column test on a flat index `v`: its column `v % N` satisfies
`column <= N_e - 1`.  Integer (not truncated natural) arithmetic, exactly as
in the Python comparison. -/
def EI_subspace_RNN.isExcCol (r : EI_subspace_RNN) (v : Nat) : Prop :=
  ((v % r.N : Int) ≤ (r.N_e : Int) - 1)

instance (r : EI_subspace_RNN) (v : Nat) : Decidable (r.isExcCol v) := by
  unfold EI_subspace_RNN.isExcCol; infer_instance

/-- Inhibitory column test on a flat index `v`: `column >= N_e`. -/
def EI_subspace_RNN.isInhCol (r : EI_subspace_RNN) (v : Nat) : Prop :=
  ((r.N_e : Int) ≤ (v % r.N : Int))

instance (r : EI_subspace_RNN) (v : Nat) : Decidable (r.isInhCol v) := by
  unfold EI_subspace_RNN.isInhCol; infer_instance

/-- Flat indices of excitatory entries (`self.w_ind_pos`): the loop over
`range(N_weights)` appends `w_ind[ind]` whenever its column is `<= N_e - 1`. -/
def EI_subspace_RNN.w_ind_pos (r : EI_subspace_RNN) : List Nat :=
  r.w_ind_listed.filter (fun v => decide (r.isExcCol v))

/-- Flat indices of inhibitory entries (`self.w_ind_neg`): appended whenever
the column is `>= N_e`. -/
def EI_subspace_RNN.w_ind_neg (r : EI_subspace_RNN) : List Nat :=
  r.w_ind_listed.filter (fun v => decide (r.isInhCol v))

/-- The diagonal flat indices `N*i + i`, `i < N`, seeded into `w_ind` before
any random draw. -/
def diagIndices (N : Nat) : List Nat :=
  (List.range N).map (fun i => N * i + i)

/-- The index-collection loop of `__init__`: starting from the accumulated
list `acc` (initially the diagonal), scan the pseudo-random stream, skipping
values already present, until `k` fresh values have been appended.  Returns
`none` when the stream is exhausted first (the source would raise an
`IndexError` reading past the end of `rand`). -/
def fillIndices : List Nat → Nat → List Nat → Option (List Nat)
  | acc, 0, _ => some acc
  | _, _ + 1, [] => none
  | acc, k + 1, x :: rest =>
    if x ∈ acc then fillIndices acc (k + 1) rest
    else fillIndices (acc ++ [x]) k rest

/-- The constructor `EI_subspace_RNN.__init__`, with the NumPy PCG64 stream
abstracted into the explicit list `rand` of drawn values:
`N_weights = int(sparsity * N**2)` (truncation — sparsity is nonnegative so
this is the floor), the diagonal indices are forced, and `N_weights - N`
fresh non-diagonal indices are collected from the stream. -/
def initTopology (Ne Ni : Nat) (sparsity : ℚ) (rand : List Nat) :
    Option EI_subspace_RNN :=
  (fillIndices (diagIndices (Ne + Ni))
      ((sparsity * ((Ne + Ni : Nat) : ℚ) ^ 2).floor.toNat - (Ne + Ni)) rand).map
    (fun l => ⟨Ne, Ni, (sparsity * ((Ne + Ni : Nat) : ℚ) ^ 2).floor.toNat, l⟩)

/-- Pointwise update of an (unbounded) matrix-as-function: the single
assignment `W[i, j] = x`. -/
def Mupdate (W : Nat → Nat → ℚ) (i j : Nat) (x : ℚ) : Nat → Nat → ℚ :=
  fun a b => if a = i ∧ b = j then x else W a b

/-- Loop body of `build_full_weight_matrix`: write `+w[ind]` at the unraveled
cell when the flat index is in `w_ind_pos`, `-w[ind]` when in `w_ind_neg`,
and fail (the source raises) otherwise. -/
def buildLoop (r : EI_subspace_RNN) (w : List ℚ) :
    List Nat → (Nat → Nat → ℚ) → Option (Nat → Nat → ℚ)
  | [], W => some W
  | ind :: rest, W =>
    let v := r.wIndAt ind
    if v ∈ r.w_ind_pos then
      buildLoop r w rest (Mupdate W (v / r.N) (v % r.N) (w.getD ind 0))
    else if v ∈ r.w_ind_neg then
      buildLoop r w rest (Mupdate W (v / r.N) (v % r.N) (-(w.getD ind 0)))
    else none

/-- `build_full_weight_matrix` (decode): checks the weight-vector length
against `N_weights` first (`none` models the raised length-mismatch
exception), then runs the writing loop over `range(N_weights)` starting from
the zero matrix. -/
def build_full_weight_matrix (r : EI_subspace_RNN) (w : List ℚ) :
    Option (Nat → Nat → ℚ) :=
  if w.length = r.N_weights then
    buildLoop r w (List.range r.N_weights) (fun _ _ => 0)
  else none

/-- Total view of the decoded matrix (zero when decoding fails); used to keep
statements about entry values free of `Option` plumbing. -/
def decodeW (r : EI_subspace_RNN) (w : List ℚ) : Nat → Nat → ℚ :=
  (build_full_weight_matrix r w).getD (fun _ _ => 0)

/-- `get_nonzero_weight_vector` (encode): read the signed entry at each
topology cell, dividing out the sign class (identity for excitatory, negation
for inhibitory); positions in neither class keep the zero initialization. -/
def get_nonzero_weight_vector (r : EI_subspace_RNN) (W : Nat → Nat → ℚ) :
    List ℚ :=
  (List.range r.N_weights).map (fun ind =>
    if r.wIndAt ind ∈ r.w_ind_pos then W (r.wIndAt ind / r.N) (r.wIndAt ind % r.N)
    else if r.wIndAt ind ∈ r.w_ind_neg then -(W (r.wIndAt ind / r.N) (r.wIndAt ind % r.N))
    else 0)

/-- The cell `(i, j)` is one of the topology's unraveled cells (some stored
flat index `v` with `v / N = i` and `v % N = j`, at a position `< N_weights`). -/
def isTopCell (r : EI_subspace_RNN) (i j : Nat) : Prop :=
  ∃ ind ∈ Finset.range r.N_weights,
    r.wIndAt ind / r.N = i ∧ r.wIndAt ind % r.N = j

instance (r : EI_subspace_RNN) (i j : Nat) : Decidable (isTopCell r i j) := by
  unfold isTopCell; infer_instance

/-! ### Basic facts about the topology lists -/

lemma wIndAt_mem_listed (r : EI_subspace_RNN) (ind : Nat) (h : ind < r.N_weights) :
    r.wIndAt ind ∈ r.w_ind_listed := by
  unfold EI_subspace_RNN.w_ind_listed
  exact List.mem_map_of_mem _ (List.mem_range.mpr h)

lemma mem_pos_iff (r : EI_subspace_RNN) (v : Nat) :
    v ∈ r.w_ind_pos ↔ v ∈ r.w_ind_listed ∧ r.isExcCol v := by
  unfold EI_subspace_RNN.w_ind_pos
  simp [List.mem_filter]

lemma mem_neg_iff (r : EI_subspace_RNN) (v : Nat) :
    v ∈ r.w_ind_neg ↔ v ∈ r.w_ind_listed ∧ r.isInhCol v := by
  unfold EI_subspace_RNN.w_ind_neg
  simp [List.mem_filter]

lemma exc_or_inh (r : EI_subspace_RNN) (v : Nat) : r.isExcCol v ∨ r.isInhCol v := by
  unfold EI_subspace_RNN.isExcCol EI_subspace_RNN.isInhCol
  omega

lemma not_exc_and_inh (r : EI_subspace_RNN) (v : Nat) :
    ¬(r.isExcCol v ∧ r.isInhCol v) := by
  unfold EI_subspace_RNN.isExcCol EI_subspace_RNN.isInhCol
  omega

lemma pos_or_neg (r : EI_subspace_RNN) (ind : Nat) (h : ind < r.N_weights) :
    r.wIndAt ind ∈ r.w_ind_pos ∨ r.wIndAt ind ∈ r.w_ind_neg := by
  rcases exc_or_inh r (r.wIndAt ind) with he | hi
  · exact Or.inl ((mem_pos_iff r _).mpr ⟨wIndAt_mem_listed r ind h, he⟩)
  · exact Or.inr ((mem_neg_iff r _).mpr ⟨wIndAt_mem_listed r ind h, hi⟩)

lemma exc_col_lt (r : EI_subspace_RNN) (v : Nat) (h : r.isExcCol v) :
    v % r.N < r.N_e := by
  unfold EI_subspace_RNN.isExcCol at h
  omega

lemma inh_col_ge (r : EI_subspace_RNN) (v : Nat) (h : r.isInhCol v) :
    r.N_e ≤ v % r.N := by
  unfold EI_subspace_RNN.isInhCol at h
  omega

/-! ### The decode loop: success and entry characterization -/

lemma buildLoop_isSome (r : EI_subspace_RNN) (w : List ℚ) :
    ∀ (L : List Nat) (W0 : Nat → Nat → ℚ),
      (∀ ind ∈ L, r.wIndAt ind ∈ r.w_ind_pos ∨ r.wIndAt ind ∈ r.w_ind_neg) →
      (buildLoop r w L W0).isSome := by
  intro L
  induction L with
  | nil => intro W0 _; simp [buildLoop]
  | cons ind rest ih =>
    intro W0 h
    rcases h ind (List.mem_cons_self _ _) with hp | hn
    · simp only [buildLoop, if_pos hp]
      exact ih _ (fun i hi => h i (List.mem_cons_of_mem _ hi))
    · simp only [buildLoop]
      by_cases hp : r.wIndAt ind ∈ r.w_ind_pos
      · rw [if_pos hp]
        exact ih _ (fun i hi => h i (List.mem_cons_of_mem _ hi))
      · rw [if_neg hp, if_pos hn]
        exact ih _ (fun i hi => h i (List.mem_cons_of_mem _ hi))

lemma build_isSome (r : EI_subspace_RNN) (w : List ℚ)
    (hlen : w.length = r.N_weights) :
    (build_full_weight_matrix r w).isSome := by
  unfold build_full_weight_matrix
  rw [if_pos hlen]
  exact buildLoop_isSome r w _ _
    (fun ind hi => pos_or_neg r ind (List.mem_range.mp hi))

lemma buildLoop_cases (r : EI_subspace_RNN) (w : List ℚ) :
    ∀ (L : List Nat) (W0 W : Nat → Nat → ℚ),
      buildLoop r w L W0 = some W → ∀ i j,
      ((∀ ind ∈ L, ¬(r.wIndAt ind / r.N = i ∧ r.wIndAt ind % r.N = j)) ∧
        W i j = W0 i j) ∨
      (∃ ind ∈ L, r.wIndAt ind / r.N = i ∧ r.wIndAt ind % r.N = j ∧
        ((r.wIndAt ind ∈ r.w_ind_pos ∧ W i j = w.getD ind 0) ∨
         (r.wIndAt ind ∉ r.w_ind_pos ∧ r.wIndAt ind ∈ r.w_ind_neg ∧
           W i j = -(w.getD ind 0)))) := by
  intro L
  induction L with
  | nil =>
    intro W0 W h i j
    simp only [buildLoop, Option.some.injEq] at h
    exact Or.inl ⟨by simp, by rw [← h]⟩
  | cons ind rest ih =>
    intro W0 W h i j
    simp only [buildLoop] at h
    by_cases hp : r.wIndAt ind ∈ r.w_ind_pos
    · rw [if_pos hp] at h
      rcases ih _ W h i j with ⟨hno, heq⟩ | ⟨ind', hmem, hc1, hc2, hval⟩
      · by_cases hcell : r.wIndAt ind / r.N = i ∧ r.wIndAt ind % r.N = j
        · refine Or.inr ⟨ind, List.mem_cons_self _ _, hcell.1, hcell.2, Or.inl ⟨hp, ?_⟩⟩
          rw [heq]
          unfold Mupdate
          rw [if_pos ⟨hcell.1.symm, hcell.2.symm⟩]
        · refine Or.inl ⟨?_, ?_⟩
          · intro ind'' hmem''
            rcases List.mem_cons.mp hmem'' with rfl | h''
            · exact hcell
            · exact hno ind'' h''
          · rw [heq]
            unfold Mupdate
            rw [if_neg]
            intro hc
            exact hcell ⟨hc.1.symm, hc.2.symm⟩
      · exact Or.inr ⟨ind', List.mem_cons_of_mem _ hmem, hc1, hc2, hval⟩
    · rw [if_neg hp] at h
      by_cases hn : r.wIndAt ind ∈ r.w_ind_neg
      · rw [if_pos hn] at h
        rcases ih _ W h i j with ⟨hno, heq⟩ | ⟨ind', hmem, hc1, hc2, hval⟩
        · by_cases hcell : r.wIndAt ind / r.N = i ∧ r.wIndAt ind % r.N = j
          · refine Or.inr ⟨ind, List.mem_cons_self _ _, hcell.1, hcell.2,
              Or.inr ⟨hp, hn, ?_⟩⟩
            rw [heq]
            unfold Mupdate
            rw [if_pos ⟨hcell.1.symm, hcell.2.symm⟩]
          · refine Or.inl ⟨?_, ?_⟩
            · intro ind'' hmem''
              rcases List.mem_cons.mp hmem'' with rfl | h''
              · exact hcell
              · exact hno ind'' h''
            · rw [heq]
              unfold Mupdate
              rw [if_neg]
              intro hc
              exact hcell ⟨hc.1.symm, hc.2.symm⟩
        · exact Or.inr ⟨ind', List.mem_cons_of_mem _ hmem, hc1, hc2, hval⟩
      · rw [if_neg hn] at h
        exact absurd h (by simp)

/-! ### The index-collection loop -/

lemma fillIndices_spec (rand : List Nat) :
    ∀ (acc : List Nat) (k : Nat) (l : List Nat),
      fillIndices acc k rand = some l →
      ∃ t, l = acc ++ t ∧ t.length = k ∧ (∀ x ∈ t, x ∉ acc ∧ x ∈ rand) ∧
        (acc.Nodup → l.Nodup) := by
  induction rand with
  | nil =>
    intro acc k l h
    cases k with
    | zero =>
      simp only [fillIndices, Option.some.injEq] at h
      exact ⟨[], by simp [← h], rfl, by simp, fun hn => h ▸ hn⟩
    | succ k => simp [fillIndices] at h
  | cons x rest ih =>
    intro acc k l h
    cases k with
    | zero =>
      simp only [fillIndices, Option.some.injEq] at h
      exact ⟨[], by simp [← h], rfl, by simp, fun hn => h ▸ hn⟩
    | succ k =>
      rw [fillIndices] at h
      by_cases hx : x ∈ acc
      · rw [if_pos hx] at h
        obtain ⟨t, ht1, ht2, ht3, ht4⟩ := ih acc (k + 1) l h
        exact ⟨t, ht1, ht2,
          fun y hy => ⟨(ht3 y hy).1, List.mem_cons_of_mem _ (ht3 y hy).2⟩, ht4⟩
      · rw [if_neg hx] at h
        obtain ⟨t, ht1, ht2, ht3, ht4⟩ := ih (acc ++ [x]) k l h
        refine ⟨x :: t, by simp [ht1], by simp [ht2], ?_, ?_⟩
        · intro y hy
          rcases List.mem_cons.mp hy with rfl | hy'
          · exact ⟨hx, List.mem_cons_self _ _⟩
          · refine ⟨fun hc => (ht3 y hy').1 (List.mem_append_left _ hc),
              List.mem_cons_of_mem _ (ht3 y hy').2⟩
        · intro hn
          apply ht4
          simp [List.nodup_append, hn, hx]

lemma diagIndices_length (N : Nat) : (diagIndices N).length = N := by
  simp [diagIndices]

lemma diagIndices_nodup (N : Nat) : (diagIndices N).Nodup := by
  unfold diagIndices
  refine List.Nodup.map ?_ (List.nodup_range N)
  intro a b hab
  have hab' : N * a + a = N * b + b := hab
  have h : (N + 1) * a = (N + 1) * b := by
    calc (N + 1) * a = N * a + a := by ring
      _ = N * b + b := hab'
      _ = (N + 1) * b := by ring
  exact Nat.eq_of_mul_eq_mul_left (Nat.succ_pos N) h

lemma diagIndices_lt (N : Nat) : ∀ v ∈ diagIndices N, v < N ^ 2 := by
  intro v hv
  unfold diagIndices at hv
  obtain ⟨i, hi, rfl⟩ := List.mem_map.mp hv
  have hi' : i < N := List.mem_range.mp hi
  calc N * i + i < N * i + N := by omega
    _ = N * (i + 1) := by ring
    _ ≤ N * N := Nat.mul_le_mul_left N (by omega)
    _ = N ^ 2 := by ring


/-- Evaluation helper for the constructor: once the floor of
`sparsity * N²` is known, the remaining computation is over naturals. -/
lemma initTopology_eval (Ne Ni : Nat) (sp : ℚ) (rand : List Nat) (Nw : Nat)
    (hNw : (sp * ((Ne + Ni : Nat) : ℚ) ^ 2).floor.toNat = Nw) :
    initTopology Ne Ni sp rand =
      (fillIndices (diagIndices (Ne + Ni)) (Nw - (Ne + Ni)) rand).map
        (fun l => ⟨Ne, Ni, Nw, l⟩) := by
  unfold initTopology
  rw [hNw]

/-- C1 (amended).  For every constructor input with `N_e > 0`, `N_i > 0`,
`sparsity ∈ (0,1]`, and any pseudo-random stream of in-range draws for which
the collection loop terminates, the constructed topology stores
`N_weights = ⌊sparsity·N²⌋` (truncation as in `int(...)`, not rounding) and
its index list has exactly `max N N_weights` entries — not `N_weights` when
`N_weights < N` — all below `N²`, pairwise distinct, consisting of all `N`
diagonal indices followed by distinct non-diagonal indices. -/
theorem C1_topology_size_amended (Ne Ni : Nat) (sparsity : ℚ) (rand : List Nat)
    (r : EI_subspace_RNN)
    (hNe : 0 < Ne) (hNi : 0 < Ni) (hs0 : 0 < sparsity) (hs1 : sparsity ≤ 1)
    (hrand : ∀ x ∈ rand, x < (Ne + Ni) ^ 2)
    (hinit : initTopology Ne Ni sparsity rand = some r) :
    r.N_weights = (sparsity * ((Ne + Ni : Nat) : ℚ) ^ 2).floor.toNat ∧
    r.w_ind.length = max (Ne + Ni) r.N_weights ∧
    r.w_ind.Nodup ∧
    (∀ v ∈ r.w_ind, v < (Ne + Ni) ^ 2) ∧
    ∃ t, r.w_ind = diagIndices (Ne + Ni) ++ t ∧
      t.length = r.N_weights - (Ne + Ni) ∧
      ∀ x ∈ t, x ∉ diagIndices (Ne + Ni) := by
  unfold initTopology at hinit
  rw [Option.map_eq_some'] at hinit
  obtain ⟨l, hfill, hr⟩ := hinit
  obtain ⟨t, ht1, ht2, ht3, ht4⟩ := fillIndices_spec rand _ _ _ hfill
  subst hr
  refine ⟨rfl, ?_, ?_, ?_, t, ht1, ht2, fun x hx => (ht3 x hx).1⟩
  · show l.length = max (Ne + Ni) ((sparsity * ((Ne + Ni : Nat) : ℚ) ^ 2).floor.toNat)
    rw [ht1, List.length_append, diagIndices_length, ht2]
    omega
  · exact ht4 (diagIndices_nodup _)
  · intro v hv
    rw [ht1] at hv
    rcases List.mem_append.mp hv with hd | htl
    · exact diagIndices_lt _ v hd
    · exact hrand v (ht3 v htl).2

/-- C1 counterexample.  At `N_e = 2`, `N_i = 2`, `sparsity = 1/10` (and the
empty stream — no extra draws are needed) the constructed topology holds 4
flat indices (the forced diagonal), while the claim predicts
`round(sparsity·N²) = round(1.6) = 2` (and the code's own `int` truncation
would give 1): the claimed count fails both because `int` truncates rather
than rounds and because the diagonal seeding makes the list length
`max N N_weights`, not `N_weights`. -/
theorem C1_counterexample :
    (initTopology 2 2 (1/10) []).map (fun r => r.w_ind.length) = some 4 ∧
    round ((1 : ℚ)/10 * ((2 + 2 : Nat) : ℚ) ^ 2) = 2 ∧ (4 : Nat) ≠ 2 := by
  refine ⟨?_, ?_, by decide⟩
  · rw [initTopology_eval 2 2 (1/10) [] 1 (by norm_num [Rat.floor_def'])]
    decide
  · rw [round_eq]
    norm_num [Rat.floor_def']

/-- C1 witness: the concrete scenario `N_e = 4`, `N_i = 2`, `sparsity = 1`
with a stream enumerating all 36 flat indices; the topology holds exactly 36
indices. -/
theorem C1_topology_size_amended_witness :
    ((0 : Nat) < 4 ∧ (0 : Nat) < 2 ∧ (0 : ℚ) < 1 ∧ (1 : ℚ) ≤ 1 ∧
      ∀ x ∈ List.range 36, x < (4 + 2) ^ 2) ∧
    (initTopology 4 2 1 (List.range 36)).map (fun r => r.w_ind.length) =
      some 36 := by
  have hNw : ((1 : ℚ) * ((4 + 2 : Nat) : ℚ) ^ 2).floor.toNat = 36 := by
    have h2 : ((1 : ℚ) * ((4 + 2 : Nat) : ℚ) ^ 2).floor = 36 := by
      norm_num [Rat.floor_def']
    rw [h2]
    decide
  refine ⟨⟨by decide, by decide, by norm_num, le_refl 1, by decide⟩, ?_⟩
  cases hinit : initTopology 4 2 1 (List.range 36) with
  | none =>
    have hsome : (initTopology 4 2 1 (List.range 36)).isSome = true := by
      rw [initTopology_eval 4 2 1 (List.range 36) 36 hNw]
      decide
    rw [hinit] at hsome
    exact absurd hsome (by decide)
  | some r =>
    obtain ⟨hNwr, hlen, -⟩ := C1_topology_size_amended 4 2 1 (List.range 36) r
      (by decide) (by decide) (by norm_num) (le_refl 1) (by decide) hinit
    have h36 : r.N_weights = 36 := by rw [hNwr, hNw]
    rw [Option.map_some', hlen, h36]
    decide

/-- C8.  `build_full_weight_matrix` fails exactly when the supplied weight
vector's length differs from `N_weights`: the length test precedes the
writing loop (so failure produces no partial matrix), and the loop itself
never hits its defensive failure branch because the two sign classes cover
every stored index. -/
theorem C8_shape_mismatch_iff :
    ∀ (r : EI_subspace_RNN) (w : List ℚ),
      build_full_weight_matrix r w = none ↔ w.length ≠ r.N_weights := by
  intro r w
  constructor
  · intro h hlen
    have := build_isSome r w hlen
    rw [h] at this
    exact absurd this (by simp)
  · intro hlen
    unfold build_full_weight_matrix
    rw [if_neg hlen]

/-- C10.  Every stored topology index lies in exactly one of the two sign
classes (the column tests `<= N_e - 1` and `>= N_e` are exhaustive and
exclusive over the integers), hence the final `else` failure branch of
`build_full_weight_matrix` is unreachable: any weight vector of the correct
length decodes successfully. -/
theorem C10_sign_partition :
    ∀ r : EI_subspace_RNN,
      (∀ ind, ind < r.N_weights →
        (r.wIndAt ind ∈ r.w_ind_pos ∧ r.wIndAt ind ∉ r.w_ind_neg) ∨
        (r.wIndAt ind ∉ r.w_ind_pos ∧ r.wIndAt ind ∈ r.w_ind_neg)) ∧
      ∀ w : List ℚ, w.length = r.N_weights →
        (build_full_weight_matrix r w).isSome := by
  intro r
  constructor
  · intro ind hind
    rcases pos_or_neg r ind hind with hp | hn
    · refine Or.inl ⟨hp, fun hn => ?_⟩
      exact not_exc_and_inh r (r.wIndAt ind)
        ⟨((mem_pos_iff r _).mp hp).2, ((mem_neg_iff r _).mp hn).2⟩
    · refine Or.inr ⟨fun hp => ?_, hn⟩
      exact not_exc_and_inh r (r.wIndAt ind)
        ⟨((mem_pos_iff r _).mp hp).2, ((mem_neg_iff r _).mp hn).2⟩
  · exact build_isSome r

/-- Concrete topology used by the witnesses: `N_e = N_i = 1`, full sparsity;
it is the output of `initTopology 1 1 1 [1, 2]`. -/
def rEx : EI_subspace_RNN := ⟨1, 1, 4, [0, 3, 1, 2]⟩

lemma rEx_eq_initTopology : initTopology 1 1 1 [1, 2] = some rEx := by
  have hNw : ((1 : ℚ) * ((1 + 1 : Nat) : ℚ) ^ 2).floor.toNat = 4 := by
    have h2 : ((1 : ℚ) * ((1 + 1 : Nat) : ℚ) ^ 2).floor = 4 := by
      norm_num [Rat.floor_def']
    rw [h2]
    decide
  rw [initTopology_eval 1 1 1 [1, 2] 4 hNw]
  decide

/-- C10 witness: at the concrete topology `rEx`, position 0 falls in exactly
one sign class and a length-4 vector decodes successfully. -/
theorem C10_sign_partition_witness :
    ((0 : Nat) < rEx.N_weights ∧ ([5, 6, 7, 8] : List ℚ).length = rEx.N_weights) ∧
    ((rEx.wIndAt 0 ∈ rEx.w_ind_pos ∧ rEx.wIndAt 0 ∉ rEx.w_ind_neg) ∨
     (rEx.wIndAt 0 ∉ rEx.w_ind_pos ∧ rEx.wIndAt 0 ∈ rEx.w_ind_neg)) ∧
    (build_full_weight_matrix rEx [5, 6, 7, 8]).isSome :=
  ⟨⟨by decide, by decide⟩, (C10_sign_partition rEx).1 0 (by decide),
    (C10_sign_partition rEx).2 [5, 6, 7, 8] (by decide)⟩

/-! ### The codec round trip and Dale's law -/

lemma encode_length (r : EI_subspace_RNN) (W : Nat → Nat → ℚ) :
    (get_nonzero_weight_vector r W).length = r.N_weights := by
  unfold get_nonzero_weight_vector
  simp

lemma encode_getD (r : EI_subspace_RNN) (W : Nat → Nat → ℚ) (ind : Nat)
    (h : ind < r.N_weights) :
    (get_nonzero_weight_vector r W).getD ind 0 =
      (if r.wIndAt ind ∈ r.w_ind_pos then W (r.wIndAt ind / r.N) (r.wIndAt ind % r.N)
       else if r.wIndAt ind ∈ r.w_ind_neg then
         -(W (r.wIndAt ind / r.N) (r.wIndAt ind % r.N))
       else 0) := by
  unfold get_nonzero_weight_vector
  rw [List.getD_eq_getElem?_getD, List.getElem?_map, List.getElem?_range h]
  rfl

lemma getD_nonneg (w : List ℚ) (hw : ∀ x ∈ w, 0 ≤ x) (ind : Nat) :
    0 ≤ w.getD ind 0 := by
  rw [List.getD_eq_getElem?_getD]
  cases h : w[ind]? with
  | none => simp
  | some x => simpa using hw x (List.getElem?_mem h)

/-- C2.  For every matrix `W` supported on the topology cells and obeying the
Dale sign convention on every entry, `get_nonzero_weight_vector` returns an
entrywise non-negative vector and `build_full_weight_matrix` applied to that
vector reconstructs `W` exactly. -/
theorem C2_codec_round_trip (r : EI_subspace_RNN) (W : Nat → Nat → ℚ)
    (hsupp : ∀ i j, W i j ≠ 0 → isTopCell r i j)
    (hsign : ∀ i j, (j < r.N_e → 0 ≤ W i j) ∧ (r.N_e ≤ j → W i j ≤ 0)) :
    (∀ x ∈ get_nonzero_weight_vector r W, 0 ≤ x) ∧
    (build_full_weight_matrix r (get_nonzero_weight_vector r W)).isSome ∧
    ∀ i j, decodeW r (get_nonzero_weight_vector r W) i j = W i j := by
  have hlen := encode_length r W
  have hsome := build_isSome r _ hlen
  refine ⟨?_, hsome, ?_⟩
  · intro x hx
    unfold get_nonzero_weight_vector at hx
    rw [List.mem_map] at hx
    obtain ⟨ind, hind, rfl⟩ := hx
    split_ifs with h1 h2
    · exact (hsign _ _).1 (exc_col_lt r _ ((mem_pos_iff r _).mp h1).2)
    · exact neg_nonneg.mpr ((hsign _ _).2 (inh_col_ge r _ ((mem_neg_iff r _).mp h2).2))
    · exact le_refl 0
  · intro i j
    obtain ⟨Wd, hWd⟩ := Option.isSome_iff_exists.mp hsome
    have hloop : buildLoop r (get_nonzero_weight_vector r W)
        (List.range r.N_weights) (fun _ _ => 0) = some Wd := by
      unfold build_full_weight_matrix at hWd
      rw [if_pos hlen] at hWd
      exact hWd
    have hdec : decodeW r (get_nonzero_weight_vector r W) = Wd := by
      unfold decodeW
      rw [hWd]
      rfl
    rw [hdec]
    rcases buildLoop_cases r _ _ _ _ hloop i j with ⟨hno, heq⟩ |
      ⟨ind, hmem, hc1, hc2, hval⟩
    · rw [heq]
      by_contra hne
      have hWne : W i j ≠ 0 := fun h0 => hne (by rw [h0])
      obtain ⟨ind, hind, hcell⟩ := hsupp i j hWne
      exact hno ind (List.mem_range.mpr (Finset.mem_range.mp hind)) hcell
    · have hind : ind < r.N_weights := List.mem_range.mp hmem
      have hgetD := encode_getD r W ind hind
      rcases hval with ⟨hp, hv⟩ | ⟨hp, hn, hv⟩
      · rw [hv, hgetD, if_pos hp, hc1, hc2]
      · rw [hv, hgetD, if_neg hp, if_pos hn, hc1, hc2, neg_neg]

/-- Concrete matrix used by the C2 witness: a single non-zero entry in the
excitatory column 0. -/
def WEx : Nat → Nat → ℚ := fun i j => if i = 0 ∧ j = 0 then 1 else 0

/-- C2 witness: on the concrete topology `rEx` and a matrix with a single
non-zero excitatory entry, the encoded vector is non-negative and decoding it
recovers the matrix. -/
theorem C2_codec_round_trip_witness :
    (∀ i j, WEx i j ≠ 0 → isTopCell rEx i j) ∧
    (∀ i j, (j < rEx.N_e → 0 ≤ WEx i j) ∧ (rEx.N_e ≤ j → WEx i j ≤ 0)) ∧
    (∀ x ∈ get_nonzero_weight_vector rEx WEx, 0 ≤ x) ∧
    decodeW rEx (get_nonzero_weight_vector rEx WEx) 0 0 = WEx 0 0 := by
  have h1 : ∀ i j, WEx i j ≠ 0 → isTopCell rEx i j := by
    intro i j h
    by_cases hc : i = 0 ∧ j = 0
    · obtain ⟨rfl, rfl⟩ := hc
      decide
    · exfalso
      apply h
      unfold WEx
      rw [if_neg hc]
  have h2 : ∀ i j, (j < rEx.N_e → 0 ≤ WEx i j) ∧ (rEx.N_e ≤ j → WEx i j ≤ 0) := by
    intro i j
    unfold WEx
    constructor
    · intro _
      by_cases hc : i = 0 ∧ j = 0
      · rw [if_pos hc]
        norm_num
      · rw [if_neg hc]
    · intro hj
      by_cases hc : i = 0 ∧ j = 0
      · exfalso
        obtain ⟨-, rfl⟩ := hc
        exact absurd hj (by decide)
      · rw [if_neg hc]
  exact ⟨h1, h2, (C2_codec_round_trip rEx WEx h1 h2).1,
    (C2_codec_round_trip rEx WEx h1 h2).2.2 0 0⟩

/-- C3.  For every non-negative weight vector that decodes successfully,
every non-zero entry `(i, j)` of the decoded matrix is positive exactly when
`j < N_e` and negative exactly when `j ≥ N_e`: Dale's law holds after decode. -/
theorem C3_Dale_sign_after_decode (r : EI_subspace_RNN) (w : List ℚ)
    (hw : ∀ x ∈ w, 0 ≤ x)
    (hs : (build_full_weight_matrix r w).isSome) :
    ∀ i j, decodeW r w i j ≠ 0 →
      (0 < decodeW r w i j ↔ j < r.N_e) ∧
      (decodeW r w i j < 0 ↔ r.N_e ≤ j) := by
  intro i j hne
  obtain ⟨Wd, hWd⟩ := Option.isSome_iff_exists.mp hs
  have hlen : w.length = r.N_weights := by
    by_contra hlen
    unfold build_full_weight_matrix at hWd
    rw [if_neg hlen] at hWd
    exact Option.noConfusion hWd
  have hloop : buildLoop r w (List.range r.N_weights) (fun _ _ => 0) =
      some Wd := by
    unfold build_full_weight_matrix at hWd
    rw [if_pos hlen] at hWd
    exact hWd
  have hdec : decodeW r w = Wd := by
    unfold decodeW
    rw [hWd]
    rfl
  rw [hdec] at hne ⊢
  rcases buildLoop_cases r w _ _ _ hloop i j with ⟨-, heq⟩ |
    ⟨ind, hmem, hc1, hc2, hval⟩
  · exact absurd heq hne
  · have hwnn : 0 ≤ w.getD ind 0 := getD_nonneg w hw ind
    rcases hval with ⟨hp, hv⟩ | ⟨hp, hn, hv⟩
    · have hcol : r.wIndAt ind % r.N < r.N_e :=
        exc_col_lt r _ ((mem_pos_iff r _).mp hp).2
      have hj : j < r.N_e := hc2 ▸ hcol
      have hpos : 0 < Wd i j := lt_of_le_of_ne (hv ▸ hwnn) (Ne.symm hne)
      exact ⟨⟨fun _ => hj, fun _ => hpos⟩,
        ⟨fun hlt => absurd hlt (not_lt.mpr hpos.le),
         fun hj' => absurd hj (not_lt.mpr hj')⟩⟩
    · have hcol : r.N_e ≤ r.wIndAt ind % r.N :=
        inh_col_ge r _ ((mem_neg_iff r _).mp hn).2
      have hj : r.N_e ≤ j := hc2 ▸ hcol
      have hneg : Wd i j < 0 := by
        rcases lt_or_eq_of_le hwnn with h | h
        · rw [hv]
          exact neg_lt_zero.mpr h
        · exfalso
          apply hne
          rw [hv, ← h, neg_zero]
      exact ⟨⟨fun hlt => absurd hneg (not_lt.mpr hlt.le),
         fun hj' => absurd hj' (not_lt.mpr hj)⟩,
        ⟨fun _ => hj, fun _ => hneg⟩⟩

/-- C3 witness: at the concrete topology `rEx` with weight vector
`[1, 2, 3, 4]`, the decoded entry at `(0, 1)` (an inhibitory column) is
`-3 < 0`, matching the sign characterization. -/
theorem C3_Dale_sign_after_decode_witness :
    (∀ x ∈ ([1, 2, 3, 4] : List ℚ), 0 ≤ x) ∧
    (build_full_weight_matrix rEx [1, 2, 3, 4]).isSome ∧
    decodeW rEx [1, 2, 3, 4] 0 1 ≠ 0 ∧
    ((0 < decodeW rEx [1, 2, 3, 4] 0 1 ↔ 1 < rEx.N_e) ∧
     (decodeW rEx [1, 2, 3, 4] 0 1 < 0 ↔ rEx.N_e ≤ 1)) :=
  ⟨by decide, by decide, by decide,
    C3_Dale_sign_after_decode rEx [1, 2, 3, 4] (by decide) (by decide) 0 1
      (by decide)⟩

/-! ### Matrix-level embedding: dimensions, inverse, external collaborators -/

/-- Rational matrices of a fixed shape. -/
abbrev MatQ (n m : Nat) := Matrix (Fin n) (Fin m) ℚ

/-- Computable matrix inverse `det⁻¹ • adjugate`, the embedding of
`np.linalg.inv` (which the source applies only to matrices it assumes
invertible). -/
def npInv {n : Nat} (A : MatQ n n) : MatQ n n := A.det⁻¹ • A.adjugate

lemma npInv_eq_inv {n : Nat} (A : MatQ n n) : npInv A = A⁻¹ := by
  unfold npInv
  rw [Matrix.inv_def, Ring.inverse_eq_inv]

/-- Clip an unbounded matrix-as-function to an `n × n` matrix (the function
view is only ever non-zero on in-range cells for constructed topologies). -/
def toMatN (n : Nat) (f : Nat → Nat → ℚ) : MatQ n n :=
  Matrix.of fun i j => f i j

/-- View an `n × n` matrix as a function on naturals, zero out of range. -/
def ofMatN {n : Nat} (M : MatQ n n) : Nat → Nat → ℚ :=
  fun i j => if h : i < n ∧ j < n then M ⟨i, h.1⟩ ⟨j, h.2⟩ else 0

/-- The decoded `N × N` weight matrix of a weight vector (matrix-typed view
of `build_full_weight_matrix`). -/
def buildW (r : EI_subspace_RNN) (w : List ℚ) : MatQ r.N r.N :=
  toMatN r.N (decodeW r w)

/-- `build_dynamics_covariance`: `Q = J·diag(s·1)·Jᵀ`. -/
def build_dynamics_covariance {K N : Nat} (J : MatQ K N) (s : ℚ) : MatQ K K :=
  J * Matrix.diagonal (fun _ => s) * Jᵀ

/-- External collaborators of the class, passed in as data: the projection
matrix `J` (a constructor argument), the value of `np.linalg.pinv(J)`, the
external reduction `utils.build_dynamics_matrix_A(W, J)` and the external
bound-constrained optimizer `scipy.optimize.minimize` (objective, gradient,
start point ↦ optimized weight vector). -/
structure RNNContext (r : EI_subspace_RNN) (K D : Nat) where
  J : MatQ K r.N
  Jpinv : MatQ r.N K
  buildA : MatQ r.N r.N → MatQ K K
  minimizer : (List ℚ → ℚ) → (List ℚ → List ℚ) → List ℚ → List ℚ

/-! ### Kalman filter E-step -/

/-- Model parameters consumed by the per-trial forward filter, as assembled
at the top of `Kalman_filter_E_step`. -/
structure KFParams (K D : Nat) where
  A : MatQ K K
  Q : MatQ K K
  C_ : MatQ D K
  d : MatQ D 1
  R : MatQ D D
  mu0 : MatQ K 1
  Q0 : MatQ K K
  b : Bool → MatQ K 1
  t_s : Nat
  y : Nat → MatQ D 1

/-- The forward recursion of `Kalman_filter_E_step`, returning
`(mu[t], V[t], mu_prior[t], V_prior[t])`: the prior at step 0 is `(mu0, Q0)`
with no prediction; afterwards the prior is propagated through `A` with the
switched input `b[t-1 >= t_s]`, and every step fuses prior and observation in
information form. -/
def KFrec {K D : Nat} (p : KFParams K D) :
    Nat → MatQ K 1 × MatQ K K × MatQ K 1 × MatQ K K
  | 0 =>
    (npInv (p.C_ᵀ * npInv p.R * p.C_ + npInv p.Q0) *
       (p.C_ᵀ * npInv p.R * (p.y 0 - p.d) + npInv p.Q0 * p.mu0),
     npInv (p.C_ᵀ * npInv p.R * p.C_ + npInv p.Q0),
     p.mu0, p.Q0)
  | t + 1 =>
    (npInv (p.C_ᵀ * npInv p.R * p.C_ +
        npInv (p.A * (KFrec p t).2.1 * p.Aᵀ + p.Q)) *
       (p.C_ᵀ * npInv p.R * (p.y (t + 1) - p.d) +
        npInv (p.A * (KFrec p t).2.1 * p.Aᵀ + p.Q) *
          (p.A * (KFrec p t).1 + p.b (decide (p.t_s ≤ t)))),
     npInv (p.C_ᵀ * npInv p.R * p.C_ +
        npInv (p.A * (KFrec p t).2.1 * p.Aᵀ + p.Q)),
     p.A * (KFrec p t).1 + p.b (decide (p.t_s ≤ t)),
     p.A * (KFrec p t).2.1 * p.Aᵀ + p.Q)

/-- Filtered mean `mu[t]`. -/
def KF_mu {K D : Nat} (p : KFParams K D) (t : Nat) : MatQ K 1 := (KFrec p t).1

/-- Filtered covariance `V[t]`. -/
def KF_V {K D : Nat} (p : KFParams K D) (t : Nat) : MatQ K K := (KFrec p t).2.1

/-- Predicted mean `mu_prior[t]`. -/
def KF_muPrior {K D : Nat} (p : KFParams K D) (t : Nat) : MatQ K 1 :=
  (KFrec p t).2.2.1

/-- Predicted covariance `V_prior[t]`. -/
def KF_VPrior {K D : Nat} (p : KFParams K D) (t : Nat) : MatQ K K :=
  (KFrec p t).2.2.2

/-- `Kalman_filter_E_step`: assembles `W` from the weight vector, the reduced
dynamics `A` through the external reduction, the dynamics covariance
`Q = J·diag(s)·Jᵀ`, and the switch time `t_s = ⌊T/2⌋`, then runs the forward
recursion. -/
def Kalman_filter_E_step (r : EI_subspace_RNN) {K D : Nat}
    (ctx : RNNContext r K D) (w : List ℚ) (b : Bool → MatQ K 1) (s : ℚ)
    (mu0 : MatQ K 1) (Q0 : MatQ K K) (C_ : MatQ D K) (d : MatQ D 1)
    (R : MatQ D D) (T : Nat) (y : Nat → MatQ D 1) : KFParams K D :=
  { A := ctx.buildA (buildW r w), Q := build_dynamics_covariance ctx.J s,
    C_ := C_, d := d, R := R, mu0 := mu0, Q0 := Q0, b := b, t_s := T / 2,
    y := y }

/-- C4.  The filter uses the prior `(mu0, Q0)` directly at step 0, propagates
`mu_prior[t] = A·mu[t-1] + b[t-1 ≥ ⌊T/2⌋]` and
`V_prior[t] = A·V[t-1]·Aᵀ + Q` for `1 ≤ t ≤ T-1`, and at every step fuses
prior and observation as `V[t] = (C_ᵀR⁻¹C_ + V_prior[t]⁻¹)⁻¹` and
`mu[t] = V[t]·(C_ᵀR⁻¹(y[t]-d) + V_prior[t]⁻¹·mu_prior[t])`. -/
theorem C4_Kalman_filter_recursion (r : EI_subspace_RNN) {K D : Nat}
    (ctx : RNNContext r K D) (w : List ℚ) (b : Bool → MatQ K 1) (s : ℚ)
    (mu0 : MatQ K 1) (Q0 : MatQ K K) (C_ : MatQ D K) (d : MatQ D 1)
    (R : MatQ D D) (T : Nat) (y : Nat → MatQ D 1) (p : KFParams K D)
    (hp : p = Kalman_filter_E_step r ctx w b s mu0 Q0 C_ d R T y)
    (hT : 1 ≤ T) (hR : R.det ≠ 0) (hQ0 : Q0.det ≠ 0)
    (hVp : ∀ t, t < T → (KF_VPrior p t).det ≠ 0) :
    (KF_muPrior p 0 = mu0 ∧ KF_VPrior p 0 = Q0) ∧
    (∀ t, 1 ≤ t → t < T →
      KF_muPrior p t = ctx.buildA (buildW r w) * KF_mu p (t - 1) +
        b (decide (T / 2 ≤ t - 1)) ∧
      KF_VPrior p t = ctx.buildA (buildW r w) * KF_V p (t - 1) *
        (ctx.buildA (buildW r w))ᵀ + build_dynamics_covariance ctx.J s) ∧
    (∀ t, t < T →
      KF_V p t = (C_ᵀ * R⁻¹ * C_ + (KF_VPrior p t)⁻¹)⁻¹ ∧
      KF_mu p t = KF_V p t *
        (C_ᵀ * R⁻¹ * (y t - d) + (KF_VPrior p t)⁻¹ * KF_muPrior p t)) := by
  subst hp
  refine ⟨⟨rfl, rfl⟩, ?_, ?_⟩
  · intro t ht1 htT
    obtain ⟨t, rfl⟩ : ∃ u, t = u + 1 := ⟨t - 1, by omega⟩
    simp only [Nat.add_sub_cancel]
    exact ⟨rfl, rfl⟩
  · intro t htT
    cases t with
    | zero =>
      constructor
      · show npInv (C_ᵀ * npInv R * C_ + npInv Q0) = _
        simp only [npInv_eq_inv]
        rfl
      · show KF_V (Kalman_filter_E_step r ctx w b s mu0 Q0 C_ d R T y) 0 *
          (C_ᵀ * npInv R * (y 0 - d) + npInv Q0 * mu0) = _
        congr 1
        simp only [npInv_eq_inv]
        rfl
    | succ t =>
      constructor
      · show npInv (C_ᵀ * npInv R * C_ + npInv (KF_VPrior _ (t + 1))) = _
        simp only [npInv_eq_inv]
      · show KF_V (Kalman_filter_E_step r ctx w b s mu0 Q0 C_ d R T y) (t + 1) *
          (C_ᵀ * npInv R * (y (t + 1) - d) +
            npInv (KF_VPrior (Kalman_filter_E_step r ctx w b s mu0 Q0 C_ d R T y) (t + 1)) *
              KF_muPrior (Kalman_filter_E_step r ctx w b s mu0 Q0 C_ d R T y) (t + 1)) = _
        congr 1
        simp only [npInv_eq_inv]

/-- Concrete external-collaborator bundle for witnesses: a `1 × 2` projection,
a stand-in pseudo-inverse, a constant external reduction, and an optimizer
that returns its start point. -/
def ctxEx : RNNContext rEx 1 1 where
  J := Matrix.of ![![1, 0]]
  Jpinv := Matrix.of ![![1], ![0]]
  buildA := fun _ => 1
  minimizer := fun _ _ x0 => x0

/-- Concrete filter parameters for the C4 witness (`K = D = 1`, `T = 1`). -/
def pEx : KFParams 1 1 :=
  Kalman_filter_E_step rEx ctxEx [1, 1, 1, 1] (fun _ => 0) 1 0 1 1 0 1 1
    (fun _ => 0)

/-- C4 witness: at the concrete instance the prior at step 0 is `(mu0, Q0)`
exactly, with all the invertibility hypotheses holding. -/
theorem C4_Kalman_filter_recursion_witness :
    ((1 : Nat) ≤ 1 ∧ ((1 : MatQ 1 1)).det ≠ 0 ∧ ((1 : MatQ 1 1)).det ≠ 0 ∧
      ∀ t, t < 1 → (KF_VPrior pEx t).det ≠ 0) ∧
    (KF_muPrior pEx 0 = 0 ∧ KF_VPrior pEx 0 = 1) := by
  have hdet : ((1 : MatQ 1 1)).det ≠ 0 := by
    rw [Matrix.det_one]
    norm_num
  have hVp : ∀ t, t < 1 → (KF_VPrior pEx t).det ≠ 0 := by
    intro t ht
    have h0 : t = 0 := by omega
    subst h0
    show ((1 : MatQ 1 1)).det ≠ 0
    exact hdet
  exact ⟨⟨le_refl 1, hdet, hdet, hVp⟩,
    (C4_Kalman_filter_recursion rEx ctxEx [1, 1, 1, 1] (fun _ => 0) 1 0 1 1 0 1
      1 (fun _ => 0) pEx rfl (le_refl 1) hdet hdet hVp).1⟩

/-! ### Kalman smoother E-step -/

/-- Inputs of the per-trial backward smoother (`Kalman_smoother_E_step`):
the reduced dynamics and the four filter output arrays, with `T` the trial
length. -/
structure KSParams (K : Nat) where
  A : MatQ K K
  mu : Nat → MatQ K 1
  mu_prior : Nat → MatQ K 1
  V : Nat → MatQ K K
  V_prior : Nat → MatQ K K
  T : Nat

/-- The backward recursion of `Kalman_smoother_E_step`, indexed by the number
`k` of backward steps taken from the terminal time: step 0 copies the filter
output at `T - 1`; step `k+1` computes the smoothed pair at `t = T - 2 - k`
through the gain `L = V[t]·Aᵀ·V_prior[t+1]⁻¹`. -/
def KSrec {K : Nat} (p : KSParams K) : Nat → MatQ K 1 × MatQ K K
  | 0 => (p.mu (p.T - 1), p.V (p.T - 1))
  | k + 1 =>
    (p.mu (p.T - 2 - k) +
       p.V (p.T - 2 - k) * p.Aᵀ * npInv (p.V_prior (p.T - 2 - k + 1)) *
         ((KSrec p k).1 - p.mu_prior (p.T - 2 - k + 1)),
     p.V (p.T - 2 - k) +
       p.V (p.T - 2 - k) * p.Aᵀ * npInv (p.V_prior (p.T - 2 - k + 1)) *
         ((KSrec p k).2 - p.V_prior (p.T - 2 - k + 1)) *
         (p.V (p.T - 2 - k) * p.Aᵀ * npInv (p.V_prior (p.T - 2 - k + 1)))ᵀ)

/-- Smoothed mean `m[t]`. -/
def KS_m {K : Nat} (p : KSParams K) (t : Nat) : MatQ K 1 :=
  (KSrec p (p.T - 1 - t)).1

/-- Smoothed covariance `cov[t]`. -/
def KS_cov {K : Nat} (p : KSParams K) (t : Nat) : MatQ K K :=
  (KSrec p (p.T - 1 - t)).2

/-- Lag-one cross covariance `cov_next[t] = L_t·cov[t+1]` (computed for
`t ≤ T - 2` by the source loop). -/
def KS_covNext {K : Nat} (p : KSParams K) (t : Nat) : MatQ K K :=
  p.V t * p.Aᵀ * npInv (p.V_prior (t + 1)) * KS_cov p (t + 1)

/-- `Kalman_smoother_E_step` bundles its inputs for the backward recursion. -/
def Kalman_smoother_E_step (K : Nat) (A : MatQ K K)
    (mu mu_prior : Nat → MatQ K 1) (V V_prior : Nat → MatQ K K) (T : Nat) :
    KSParams K :=
  ⟨A, mu, mu_prior, V, V_prior, T⟩

/-- C5.  The smoother copies the filter output at the terminal step, and for
`t ≤ T-2` applies the RTS backward updates with gain
`L_t = V[t]·Aᵀ·V_prior[t+1]⁻¹`; for `T = 1` the smoothed output equals the
filter output exactly. -/
theorem C5_Kalman_smoother_recursion (K : Nat) (A : MatQ K K)
    (mu mu_prior : Nat → MatQ K 1) (V V_prior : Nat → MatQ K K) (T : Nat)
    (p : KSParams K)
    (hp : p = Kalman_smoother_E_step K A mu mu_prior V V_prior T)
    (hT : 1 ≤ T)
    (hVp : ∀ t, t + 1 < T → (V_prior (t + 1)).det ≠ 0) :
    (KS_m p (T - 1) = mu (T - 1) ∧ KS_cov p (T - 1) = V (T - 1)) ∧
    (∀ t, t + 1 ≤ T - 1 →
      KS_m p t = mu t + V t * Aᵀ * (V_prior (t + 1))⁻¹ *
        (KS_m p (t + 1) - mu_prior (t + 1)) ∧
      KS_cov p t = V t + V t * Aᵀ * (V_prior (t + 1))⁻¹ *
        (KS_cov p (t + 1) - V_prior (t + 1)) *
        (V t * Aᵀ * (V_prior (t + 1))⁻¹)ᵀ ∧
      KS_covNext p t = V t * Aᵀ * (V_prior (t + 1))⁻¹ * KS_cov p (t + 1)) ∧
    (T = 1 → KS_m p 0 = mu 0 ∧ KS_cov p 0 = V 0) := by
  subst hp
  have hTproj : (Kalman_smoother_E_step K A mu mu_prior V V_prior T).T = T := rfl
  refine ⟨?_, ?_, ?_⟩
  · constructor
    · unfold KS_m
      rw [hTproj, Nat.sub_self]
      rfl
    · unfold KS_cov
      rw [hTproj, Nat.sub_self]
      rfl
  · intro t ht
    have hk1 : T - 1 - t = T - 2 - t + 1 := by omega
    have hk2 : T - 2 - (T - 2 - t) = t := by omega
    have hk3 : T - 1 - (t + 1) = T - 2 - t := by omega
    refine ⟨?_, ?_, ?_⟩
    · unfold KS_m
      rw [hTproj, hk1, hk3]
      simp only [KSrec, hTproj, hk2, npInv_eq_inv]
      rfl
    · unfold KS_cov
      rw [hTproj, hk1, hk3]
      simp only [KSrec, hTproj, hk2, npInv_eq_inv]
      rfl
    · unfold KS_covNext KS_cov
      rw [hTproj, hk3]
      simp only [npInv_eq_inv]
      rfl
  · intro h1
    subst h1
    constructor
    · unfold KS_m
      rfl
    · unfold KS_cov
      rfl

/-- Concrete smoother parameters for the C5 witness (`K = 1`, `T = 2`,
identity covariances). -/
def pSEx : KSParams 1 :=
  Kalman_smoother_E_step 1 1 (fun _ => 0) (fun _ => 0) (fun _ => 1)
    (fun _ => 1) 2

/-- C5 witness: at the concrete `T = 2` instance the smoother's terminal
values equal the filter's, with the invertibility hypotheses holding. -/
theorem C5_Kalman_smoother_recursion_witness :
    ((1 : Nat) ≤ 2 ∧
      ∀ t : Nat, t + 1 < 2 → ((fun _ : Nat => (1 : MatQ 1 1)) (t + 1)).det ≠ 0) ∧
    (KS_m pSEx 1 = 0 ∧ KS_cov pSEx 1 = 1) := by
  have hVp : ∀ t : Nat, t + 1 < 2 →
      ((fun _ : Nat => (1 : MatQ 1 1)) (t + 1)).det ≠ 0 := by
    intro t ht
    show ((1 : MatQ 1 1)).det ≠ 0
    rw [Matrix.det_one]
    norm_num
  have h := (C5_Kalman_smoother_recursion 1 1 (fun _ => 0) (fun _ => 0)
    (fun _ => 1) (fun _ => 1) 2 pSEx rfl (by omega) hVp).1
  exact ⟨⟨by omega, hVp⟩, h.1, h.2⟩

/-! ### Weight-loss objectives -/

/-- Column vector of ones (`np.ones((N, 1))`). -/
def onesCol (n : Nat) : MatQ n 1 := Matrix.of fun _ _ => 1

/-- Row vector of ones (`np.ones((1, N))`). -/
def onesRow (n : Nat) : MatQ 1 n := Matrix.of fun _ _ => 1

/-- `loss_weights_target_LDS`: the four-term initializer objective
`ζ/2‖A - A_target‖² + α/2‖J·W·(I - J⁺J)‖² + β/2·1ᵀWᵀW1 + γ/2·tr(WWᵀ)`,
returned as the `[0,0]` scalar. -/
def loss_weights_target_LDS (r : EI_subspace_RNN) {K D : Nat}
    (ctx : RNNContext r K D) (w : List ℚ) (A_target : MatQ K K)
    (zeta alpha beta gamma : ℚ) : ℚ :=
  (1/2) * zeta * ((ctx.buildA (buildW r w) - A_target) *
    (ctx.buildA (buildW r w) - A_target)ᵀ).trace +
  (1/2) * alpha * ((ctx.J * buildW r w * (1 - ctx.Jpinv * ctx.J)) *
    (ctx.J * buildW r w * (1 - ctx.Jpinv * ctx.J))ᵀ).trace +
  (1/2) * beta *
    ((onesRow r.N * (buildW r w)ᵀ * buildW r w * onesCol r.N) 0 0) +
  (1/2) * gamma * (buildW r w * (buildW r w)ᵀ).trace

/-- `gradient_weights_target_LDS`: matrix gradient of the initializer
objective pushed through the sign-aware extraction. -/
def gradient_weights_target_LDS (r : EI_subspace_RNN) {K D : Nat}
    (ctx : RNNContext r K D) (w : List ℚ) (A_target : MatQ K K)
    (zeta alpha beta gamma : ℚ) : List ℚ :=
  get_nonzero_weight_vector r (ofMatN (
    zeta • (ctx.Jᵀ * (ctx.buildA (buildW r w) - A_target) * ctx.Jpinvᵀ) +
    alpha • (ctx.Jᵀ * (ctx.J * buildW r w * (1 - ctx.Jpinv * ctx.J))) +
    beta • (buildW r w * onesCol r.N * (onesCol r.N)ᵀ) +
    gamma • buildW r w))

/-- Aggregated statistic `M1_T1` of the M-step weight objective: sums of
smoothed covariances and mean outer products over `t < T-1`. -/
def statM1T1 (K : Nat) (m : Nat → Nat → MatQ K 1)
    (cov : Nat → Nat → MatQ K K) (U T : Nat) : MatQ K K :=
  (∑ u ∈ Finset.range U, ∑ t ∈ Finset.range (T - 1), cov u t) +
  ∑ u ∈ Finset.range U, ∑ t ∈ Finset.range (T - 1), m u t * (m u t)ᵀ

/-- Aggregated statistic `M_next`: lag-one cross covariances plus lag-one
mean outer products. -/
def statMnext (K : Nat) (m : Nat → Nat → MatQ K 1)
    (cov_next : Nat → Nat → MatQ K K) (U T : Nat) : MatQ K K :=
  (∑ u ∈ Finset.range U, ∑ t ∈ Finset.range (T - 1), cov_next u t) +
  ∑ u ∈ Finset.range U, ∑ t ∈ Finset.range (T - 1), m u t * (m u (t + 1))ᵀ

/-- Aggregated statistic `aux`: input-times-mean outer products with the
input switched at `t_s = ⌊T/2⌋`. -/
def statAux (K : Nat) (b : Bool → MatQ K 1) (m : Nat → Nat → MatQ K 1)
    (U T : Nat) : MatQ K K :=
  ∑ u ∈ Finset.range U, ∑ t ∈ Finset.range (T - 1),
    b (decide (T / 2 ≤ t)) * (m u t)ᵀ

/-- `loss_weights_M_step`: negative complete-data log-likelihood terms of the
latent transition plus the `alpha` subspace-leakage and `beta` row-sum
penalties, returned as the `[0,0]` scalar. -/
def loss_weights_M_step (r : EI_subspace_RNN) {K D : Nat}
    (ctx : RNNContext r K D) (w : List ℚ) (s : ℚ) (b : Bool → MatQ K 1)
    (m : Nat → Nat → MatQ K 1) (cov cov_next : Nat → Nat → MatQ K K)
    (U T : Nat) (alpha beta : ℚ) : ℚ :=
  -(1/s) * -(((ctx.buildA (buildW r w))ᵀ * npInv (ctx.J * ctx.Jᵀ) *
      statAux K b m U T).trace) +
  -(1/s) * -((1/2) * ((ctx.buildA (buildW r w))ᵀ * npInv (ctx.J * ctx.Jᵀ) *
      ctx.buildA (buildW r w) * statM1T1 K m cov U T).trace) +
  -(1/s) * ((npInv (ctx.J * ctx.Jᵀ) * ctx.buildA (buildW r w) *
      statMnext K m cov_next U T).trace) +
  (1/2) * alpha * ((ctx.J * buildW r w * (1 - ctx.Jpinv * ctx.J)) *
    (ctx.J * buildW r w * (1 - ctx.Jpinv * ctx.J))ᵀ).trace +
  (1/2) * beta *
    ((onesRow r.N * (buildW r w)ᵀ * buildW r w * onesCol r.N) 0 0)

/-- `gradient_weights_M_step`: matrix gradient of the M-step objective pushed
through the sign-aware extraction. -/
def gradient_weights_M_step (r : EI_subspace_RNN) {K D : Nat}
    (ctx : RNNContext r K D) (w : List ℚ) (s : ℚ) (b : Bool → MatQ K 1)
    (m : Nat → Nat → MatQ K 1) (cov cov_next : Nat → Nat → MatQ K K)
    (U T : Nat) (alpha beta : ℚ) : List ℚ :=
  get_nonzero_weight_vector r (ofMatN (
    (-(1/s)) • (ctx.Jᵀ * npInv (ctx.J * ctx.Jᵀ) *
      (-(statAux K b m U T) - ctx.buildA (buildW r w) * statM1T1 K m cov U T +
        (statMnext K m cov_next U T)ᵀ) * ctx.Jpinvᵀ) +
    alpha • (ctx.Jᵀ * (ctx.J * buildW r w * (1 - ctx.Jpinv * ctx.J))) +
    beta • (buildW r w * onesCol r.N * (onesCol r.N)ᵀ)))

/-- `check_loss_weights`: the three decomposed loss terms recorded by the EM
driver (likelihood term, subspace-leakage term, row-sum term). -/
def check_loss_weights (r : EI_subspace_RNN) {K D : Nat}
    (ctx : RNNContext r K D) (w : List ℚ) (b : Bool → MatQ K 1) (s : ℚ)
    (m : Nat → Nat → MatQ K 1) (cov cov_next : Nat → Nat → MatQ K K)
    (U T : Nat) : ℚ × ℚ × ℚ :=
  (-(1/s) * -(((ctx.buildA (buildW r w))ᵀ * npInv (ctx.J * ctx.Jᵀ) *
      statAux K b m U T).trace) +
   -(1/s) * -((1/2) * ((ctx.buildA (buildW r w))ᵀ * npInv (ctx.J * ctx.Jᵀ) *
      ctx.buildA (buildW r w) * statM1T1 K m cov U T).trace) +
   -(1/s) * ((npInv (ctx.J * ctx.Jᵀ) * ctx.buildA (buildW r w) *
      statMnext K m cov_next U T).trace),
   (1/2) * ((ctx.J * buildW r w * (1 - ctx.Jpinv * ctx.J)) *
     (ctx.J * buildW r w * (1 - ctx.Jpinv * ctx.J))ᵀ).trace,
   (1/2) * ((onesRow r.N * (buildW r w)ᵀ * buildW r w * onesCol r.N) 0 0))

/-- `check_loss_weights_LDS`: the three decomposed terms of the initializer
objective (target residual, subspace leakage, row-sum). -/
def check_loss_weights_LDS (r : EI_subspace_RNN) {K D : Nat}
    (ctx : RNNContext r K D) (w : List ℚ) (A_target : MatQ K K) :
    ℚ × ℚ × ℚ :=
  ((1/2) * ((ctx.buildA (buildW r w) - A_target) *
     (ctx.buildA (buildW r w) - A_target)ᵀ).trace,
   (1/2) * ((ctx.J * buildW r w * (1 - ctx.Jpinv * ctx.J)) *
     (ctx.J * buildW r w * (1 - ctx.Jpinv * ctx.J))ᵀ).trace,
   (1/2) * ((onesRow r.N * (buildW r w)ᵀ * buildW r w * onesCol r.N) 0 0))

/-- C7.  The `alpha` and `beta` penalty terms of the M-step weight objective
are numerically identical to those of the initializer's target-LDS objective:
subtracting the penalty-free M-step loss isolates exactly
`loss_weights_target_LDS` at `ζ = 0`, `γ = 0`, for every weight vector and
any target matrix. -/
theorem C7_penalty_terms_shared (r : EI_subspace_RNN) {K D : Nat}
    (ctx : RNNContext r K D) (w : List ℚ) (s : ℚ) (b : Bool → MatQ K 1)
    (m : Nat → Nat → MatQ K 1) (cov cov_next : Nat → Nat → MatQ K K)
    (U T : Nat) (alpha beta : ℚ) (A_target : MatQ K K) :
    loss_weights_M_step r ctx w s b m cov cov_next U T alpha beta -
      loss_weights_M_step r ctx w s b m cov cov_next U T 0 0 =
    loss_weights_target_LDS r ctx w A_target 0 alpha beta 0 := by
  unfold loss_weights_M_step loss_weights_target_LDS
  ring

/-! ### Closed-form M-step and the EM driver -/

/-- The parameters produced by `closed_form_M_step`. -/
structure MStepParams (K D : Nat) where
  b : Bool → MatQ K 1
  s : ℚ
  mu0 : MatQ K 1
  Q0 : MatQ K K
  C_ : MatQ D K
  d : MatQ D 1
  R : MatQ D D

/-- `closed_form_M_step`: sufficient-statistics updates for all parameters
except the weights, transcribed term by term from the source (sums over all
trials and time steps; `t_s = ⌊T/2⌋` splits the input segments). -/
def closed_form_M_step (r : EI_subspace_RNN) {K D : Nat}
    (ctx : RNNContext r K D) (y : Nat → Nat → MatQ D 1) (w : List ℚ)
    (m : Nat → Nat → MatQ K 1) (cov cov_next : Nat → Nat → MatQ K K)
    (U T : Nat) : MStepParams K D :=
  let A := ctx.buildA (buildW r w)
  let t_s := T / 2
  let M1 : MatQ K 1 := ∑ u ∈ Finset.range U, ∑ t ∈ Finset.range T, m u t
  let M1_T : MatQ K K :=
    (∑ u ∈ Finset.range U, ∑ t ∈ Finset.range T, cov u t) +
      ∑ u ∈ Finset.range U, ∑ t ∈ Finset.range T, m u t * (m u t)ᵀ
  let M_next : MatQ K K :=
    (∑ u ∈ Finset.range U, ∑ t ∈ Finset.range (T - 1), cov_next u t) +
      ∑ u ∈ Finset.range U, ∑ t ∈ Finset.range (T - 1), m u t * (m u (t + 1))ᵀ
  let Y1 : MatQ D 1 := ∑ u ∈ Finset.range U, ∑ t ∈ Finset.range T, y u t
  let Y2 : MatQ D D :=
    ∑ u ∈ Finset.range U, ∑ t ∈ Finset.range T, y u t * (y u t)ᵀ
  let Y_tilda : MatQ D K :=
    ∑ u ∈ Finset.range U, ∑ t ∈ Finset.range T, y u t * (m u t)ᵀ
  let M_first : MatQ K K := ∑ u ∈ Finset.range U, m u 0 * (m u 0)ᵀ
  let M_last : MatQ K K :=
    ∑ u ∈ Finset.range U, m u (T - 1) * (m u (T - 1))ᵀ
  let mu0 : MatQ K 1 := (1/(U : ℚ)) • ∑ u ∈ Finset.range U, m u 0
  let Q0 : MatQ K K :=
    (1/(U : ℚ)) • (∑ u ∈ Finset.range U, cov u 0) + (1/(U : ℚ)) • M_first -
      mu0 * mu0ᵀ
  let C_ : MatQ D K :=
    (Y1 * M1ᵀ - ((T * U : Nat) : ℚ) • Y_tilda) *
      npInv (M1 * M1ᵀ - ((T * U : Nat) : ℚ) • M1_T)
  let d : MatQ D 1 := (1/((T * U : Nat) : ℚ)) • (Y1 - C_ * M1)
  let R : MatQ D D :=
    (1/((T * U : Nat) : ℚ)) •
      (Y2 + ((T * U : Nat) : ℚ) • (d * dᵀ) - d * Y1ᵀ - Y1 * dᵀ -
        Y_tilda * C_ᵀ - C_ * Y_tildaᵀ + d * M1ᵀ * C_ᵀ + C_ * M1 * dᵀ +
        C_ * M1_T * C_ᵀ)
  let b0 : MatQ K 1 :=
    (1/((U * t_s : Nat) : ℚ)) •
        (∑ u ∈ Finset.range U, ∑ t ∈ Finset.range t_s, m u (t + 1)) -
      A * ((1/((U * t_s : Nat) : ℚ)) •
        ∑ u ∈ Finset.range U, ∑ t ∈ Finset.range t_s, m u t)
  let b1 : MatQ K 1 :=
    (1/((U * (T - 1 - t_s) : Nat) : ℚ)) •
        (∑ u ∈ Finset.range U, ∑ t ∈ Finset.Ico (t_s + 1) T, m u t) -
      A * ((1/((U * (T - 1 - t_s) : Nat) : ℚ)) •
        ∑ u ∈ Finset.range U, ∑ t ∈ Finset.Ico t_s (T - 1), m u t)
  let b : Bool → MatQ K 1 := fun i => if i then b1 else b0
  let J_aux := npInv (ctx.J * ctx.Jᵀ)
  let s1 : ℚ :=
    (J_aux * (M1_T - (∑ u ∈ Finset.range U, cov u 0) - M_first +
      A * (M1_T - (∑ u ∈ Finset.range U, cov u (T - 1)) - M_last) * Aᵀ -
      (2 : ℚ) • (A * M_next))).trace
  let s_aux : MatQ K K :=
    ∑ u ∈ Finset.range U, ∑ t ∈ Finset.range (T - 1),
      (b (decide (t_s ≤ t)) * (b (decide (t_s ≤ t)))ᵀ -
        (2 : ℚ) • (b (decide (t_s ≤ t)) * ((m u (t + 1))ᵀ - (m u t)ᵀ * Aᵀ)))
  let s : ℚ := (s1 + (J_aux * s_aux).trace) / ((K * (T - 1) * U : Nat) : ℚ)
  ⟨b, s, mu0, Q0, C_, d, R⟩

/-- Mutable state threaded through the EM loop of `fit_EM`: the current
parameters plus the latest per-trial smoothed statistics. -/
structure EMState (K D : Nat) where
  w : List ℚ
  b : Bool → MatQ K 1
  s : ℚ
  mu0 : MatQ K 1
  Q0 : MatQ K K
  C_ : MatQ D K
  d : MatQ D 1
  R : MatQ D D
  m : Nat → Nat → MatQ K 1
  cov : Nat → Nat → MatQ K K
  cov_next : Nat → Nat → MatQ K K

/-- The per-iteration E-step block of `fit_EM`: run the filter and the
smoother on every trial at the current parameters and store the smoothed
statistics. -/
def Estep_fill (r : EI_subspace_RNN) {K D : Nat} (ctx : RNNContext r K D)
    (T : Nat) (y : Nat → Nat → MatQ D 1) (st : EMState K D) : EMState K D :=
  { st with
    m := fun u t => KS_m (Kalman_smoother_E_step K
      (ctx.buildA (buildW r st.w))
      (KF_mu (Kalman_filter_E_step r ctx st.w st.b st.s st.mu0 st.Q0 st.C_
        st.d st.R T (y u)))
      (KF_muPrior (Kalman_filter_E_step r ctx st.w st.b st.s st.mu0 st.Q0
        st.C_ st.d st.R T (y u)))
      (KF_V (Kalman_filter_E_step r ctx st.w st.b st.s st.mu0 st.Q0 st.C_
        st.d st.R T (y u)))
      (KF_VPrior (Kalman_filter_E_step r ctx st.w st.b st.s st.mu0 st.Q0
        st.C_ st.d st.R T (y u))) T) t,
    cov := fun u t => KS_cov (Kalman_smoother_E_step K
      (ctx.buildA (buildW r st.w))
      (KF_mu (Kalman_filter_E_step r ctx st.w st.b st.s st.mu0 st.Q0 st.C_
        st.d st.R T (y u)))
      (KF_muPrior (Kalman_filter_E_step r ctx st.w st.b st.s st.mu0 st.Q0
        st.C_ st.d st.R T (y u)))
      (KF_V (Kalman_filter_E_step r ctx st.w st.b st.s st.mu0 st.Q0 st.C_
        st.d st.R T (y u)))
      (KF_VPrior (Kalman_filter_E_step r ctx st.w st.b st.s st.mu0 st.Q0
        st.C_ st.d st.R T (y u))) T) t,
    cov_next := fun u t => KS_covNext (Kalman_smoother_E_step K
      (ctx.buildA (buildW r st.w))
      (KF_mu (Kalman_filter_E_step r ctx st.w st.b st.s st.mu0 st.Q0 st.C_
        st.d st.R T (y u)))
      (KF_muPrior (Kalman_filter_E_step r ctx st.w st.b st.s st.mu0 st.Q0
        st.C_ st.d st.R T (y u)))
      (KF_V (Kalman_filter_E_step r ctx st.w st.b st.s st.mu0 st.Q0 st.C_
        st.d st.R T (y u)))
      (KF_VPrior (Kalman_filter_E_step r ctx st.w st.b st.s st.mu0 st.Q0
        st.C_ st.d st.R T (y u))) T) t }

/-- The loss row recorded after an E/M block:
`check_loss_weights(w, b, s, m, cov, cov_next)` at the current state. -/
def rowOf (r : EI_subspace_RNN) {K D : Nat} (ctx : RNNContext r K D)
    (U T : Nat) (st : EMState K D) : ℚ × ℚ × ℚ :=
  check_loss_weights r ctx st.w st.b st.s st.m st.cov st.cov_next U T

/-- One EM iteration of `fit_EM`: E-step on every trial, closed-form M-step,
then the external bound-constrained optimizer on the weight objective,
warm-started from the current weight vector. -/
def EMiter (r : EI_subspace_RNN) {K D : Nat} (ctx : RNNContext r K D)
    (U T : Nat) (y : Nat → Nat → MatQ D 1) (alpha beta : ℚ)
    (st : EMState K D) : EMState K D :=
  let stE := Estep_fill r ctx T y st
  let mp := closed_form_M_step r ctx y stE.w stE.m stE.cov stE.cov_next U T
  { stE with
    w := ctx.minimizer
      (fun wf => loss_weights_M_step r ctx wf mp.s mp.b stE.m stE.cov
        stE.cov_next U T alpha beta)
      (fun wf => gradient_weights_M_step r ctx wf mp.s mp.b stE.m stE.cov
        stE.cov_next U T alpha beta)
      stE.w,
    b := mp.b, s := mp.s, mu0 := mp.mu0, Q0 := mp.Q0, C_ := mp.C_,
    d := mp.d, R := mp.R }

/-- The main loop of `fit_EM`: one loss row is appended after each
iteration's M-step. -/
def fit_EM_go (r : EI_subspace_RNN) {K D : Nat} (ctx : RNNContext r K D)
    (U T : Nat) (y : Nat → Nat → MatQ D 1) (alpha beta : ℚ) :
    Nat → EMState K D → List (ℚ × ℚ × ℚ) × EMState K D
  | 0, st => ([], st)
  | k + 1, st =>
    (rowOf r ctx U T (EMiter r ctx U T y alpha beta st) ::
      (fit_EM_go r ctx U T y alpha beta k
        (EMiter r ctx U T y alpha beta st)).1,
     (fit_EM_go r ctx U T y alpha beta k
        (EMiter r ctx U T y alpha beta st)).2)

/-- The initial EM state: the supplied initial parameters with empty
(zero-filled) statistic buffers. -/
def fit_EM_initState {K D : Nat} (init_w : List ℚ) (init_b : Bool → MatQ K 1)
    (init_s : ℚ) (init_mu0 : MatQ K 1) (init_Q0 : MatQ K K)
    (init_C_ : MatQ D K) (init_d : MatQ D 1) (init_R : MatQ D D) :
    EMState K D :=
  ⟨init_w, init_b, init_s, init_mu0, init_Q0, init_C_, init_d, init_R,
    fun _ _ => 0, fun _ _ => 0, fun _ _ => 0⟩

/-- `fit_EM`: a pre-loop E-step and loss row at the initial parameters,
then exactly `max_iter` EM iterations, each appending one loss row; returns
the loss trace and the final state. -/
def fit_EM (r : EI_subspace_RNN) {K D : Nat} (ctx : RNNContext r K D)
    (U T : Nat) (y : Nat → Nat → MatQ D 1) (init_w : List ℚ)
    (init_b : Bool → MatQ K 1) (init_s : ℚ) (init_mu0 : MatQ K 1)
    (init_Q0 : MatQ K K) (init_C_ : MatQ D K) (init_d : MatQ D 1)
    (init_R : MatQ D D) (alpha beta : ℚ) (max_iter : Nat) :
    List (ℚ × ℚ × ℚ) × EMState K D :=
  (rowOf r ctx U T (Estep_fill r ctx T y
      (fit_EM_initState init_w init_b init_s init_mu0 init_Q0 init_C_ init_d
        init_R)) ::
    (fit_EM_go r ctx U T y alpha beta max_iter
      (fit_EM_initState init_w init_b init_s init_mu0 init_Q0 init_C_ init_d
        init_R)).1,
   (fit_EM_go r ctx U T y alpha beta max_iter
      (fit_EM_initState init_w init_b init_s init_mu0 init_Q0 init_C_ init_d
        init_R)).2)

lemma go_loop_spec {S R : Type} (f : S → S) (g : S → R)
    (go : Nat → S → List R × S)
    (hgo0 : ∀ st, go 0 st = ([], st))
    (hgoS : ∀ k st, go (k + 1) st =
      (g (f st) :: (go k (f st)).1, (go k (f st)).2)) :
    ∀ (k : Nat) (st : S),
      go k st = ((List.range k).map (fun j => g (f^[j + 1] st)), f^[k] st) := by
  intro k
  induction k with
  | zero =>
    intro st
    simp [hgo0]
  | succ k ih =>
    intro st
    rw [hgoS, ih (f st)]
    rw [List.range_succ_eq_map]
    simp [List.map_cons, List.map_map, Function.comp,
      Function.iterate_succ_apply, Function.iterate_one]

lemma fit_EM_go_spec (r : EI_subspace_RNN) {K D : Nat}
    (ctx : RNNContext r K D) (U T : Nat) (y : Nat → Nat → MatQ D 1)
    (alpha beta : ℚ) :
    ∀ (k : Nat) (st : EMState K D),
      fit_EM_go r ctx U T y alpha beta k st =
        ((List.range k).map (fun j =>
          rowOf r ctx U T ((EMiter r ctx U T y alpha beta)^[j + 1] st)),
         (EMiter r ctx U T y alpha beta)^[k] st) :=
  go_loop_spec (EMiter r ctx U T y alpha beta) (rowOf r ctx U T)
    (fit_EM_go r ctx U T y alpha beta) (fun _ => rfl) (fun _ _ => rfl)

/-- C6.  `fit_EM` performs exactly `max_iter` EM iterations with no
convergence-based early stop and no retries: the returned loss trace has
`max_iter + 1` rows of three decomposed terms; row 0 is the loss at the
initial parameters (after the pre-loop E-step), and row `i+1` is the loss
recorded after iteration `i`'s M-step; the final state is the `max_iter`-fold
iterate of the EM step. -/
theorem C6_fit_EM_trace (r : EI_subspace_RNN) {K D : Nat}
    (ctx : RNNContext r K D) (U T : Nat) (y : Nat → Nat → MatQ D 1)
    (init_w : List ℚ) (init_b : Bool → MatQ K 1) (init_s : ℚ)
    (init_mu0 : MatQ K 1) (init_Q0 : MatQ K K) (init_C_ : MatQ D K)
    (init_d : MatQ D 1) (init_R : MatQ D D) (alpha beta : ℚ)
    (max_iter : Nat) :
    (fit_EM r ctx U T y init_w init_b init_s init_mu0 init_Q0 init_C_ init_d
        init_R alpha beta max_iter).1.length = max_iter + 1 ∧
    (fit_EM r ctx U T y init_w init_b init_s init_mu0 init_Q0 init_C_ init_d
        init_R alpha beta max_iter).1[0]? =
      some (rowOf r ctx U T (Estep_fill r ctx T y
        (fit_EM_initState init_w init_b init_s init_mu0 init_Q0 init_C_
          init_d init_R))) ∧
    (∀ i, i < max_iter →
      (fit_EM r ctx U T y init_w init_b init_s init_mu0 init_Q0 init_C_
          init_d init_R alpha beta max_iter).1[i + 1]? =
        some (rowOf r ctx U T ((EMiter r ctx U T y alpha beta)^[i + 1]
          (fit_EM_initState init_w init_b init_s init_mu0 init_Q0 init_C_
            init_d init_R)))) ∧
    (fit_EM r ctx U T y init_w init_b init_s init_mu0 init_Q0 init_C_ init_d
        init_R alpha beta max_iter).2 =
      (EMiter r ctx U T y alpha beta)^[max_iter]
        (fit_EM_initState init_w init_b init_s init_mu0 init_Q0 init_C_
          init_d init_R) := by
  unfold fit_EM
  rw [fit_EM_go_spec]
  refine ⟨?_, ?_, ?_, rfl⟩
  · rw [List.length_cons, List.length_map, List.length_range]
  · exact List.getElem?_cons_zero
  · intro i hi
    rw [List.getElem?_cons_succ, List.getElem?_map, List.getElem?_range hi]
    rfl

/-- Concrete initial EM state for the C6 witness. -/
def st0Ex : EMState 1 1 := fit_EM_initState [1, 1, 1, 1] (fun _ => 0) 1 0 1 1 0 1

/-- C6 witness: on a concrete one-trial instance with `max_iter = 1` the
trace has 2 rows and row 1 is the loss after the first M-step. -/
theorem C6_fit_EM_trace_witness :
    (0 : Nat) < 1 ∧
    (fit_EM rEx ctxEx 1 1 (fun _ _ => 0) [1, 1, 1, 1] (fun _ => 0) 1 0 1 1 0 1
        1 1 1).1.length = 1 + 1 ∧
    (fit_EM rEx ctxEx 1 1 (fun _ _ => 0) [1, 1, 1, 1] (fun _ => 0) 1 0 1 1 0 1
        1 1 1).1[0 + 1]? =
      some (rowOf rEx ctxEx 1 1
        ((EMiter rEx ctxEx 1 1 (fun _ _ => 0) 1 1)^[0 + 1] st0Ex)) := by
  have h := C6_fit_EM_trace rEx ctxEx 1 1 (fun _ _ => 0) [1, 1, 1, 1]
    (fun _ => 0) 1 0 1 1 0 1 1 1 1
  exact ⟨by decide, h.1, h.2.2.1 0 (by decide)⟩

/-! ### Weight initializer pipeline -/

/-- `generate_stable_weights`: constant vector
`R / sqrt(sparsity·(1-sparsity)) / sqrt(N)`.  The two (irrational) square
roots are supplied as precomputed non-negative values, since the embedding is
over `ℚ`; only their sign matters for the claims below. -/
def generate_stable_weights (r : EI_subspace_RNN) (R sqrtProd sqrtN : ℚ) :
    List ℚ :=
  List.replicate r.N_weights (R / sqrtProd / sqrtN)

/-- One alternating-projection iteration of
`generate_or_initialize_weights_from_dynamics_LDS` stage 2: project onto the
`J⁺J`-block-diagonal matrices, subtract the row-mean outer product (E-I
balance), then re-impose topology and Dale signs by taking absolute values of
the sign-aware extraction and rebuilding.  Carries the pair
`(weight vector, weight matrix)`. -/
def altProjStep (r : EI_subspace_RNN) {K D : Nat} (ctx : RNNContext r K D)
    (p : List ℚ × MatQ r.N r.N) : List ℚ × MatQ r.N r.N :=
  ((get_nonzero_weight_vector r (ofMatN
      ((ctx.Jpinv * ctx.J) * p.2 * (ctx.Jpinv * ctx.J) +
        (1 - ctx.Jpinv * ctx.J) * p.2 * (1 - ctx.Jpinv * ctx.J) -
        (1/(r.N : ℚ)) •
          (((ctx.Jpinv * ctx.J) * p.2 * (ctx.Jpinv * ctx.J) +
            (1 - ctx.Jpinv * ctx.J) * p.2 * (1 - ctx.Jpinv * ctx.J)) *
            onesCol r.N * onesRow r.N)))).map (fun x => |x|),
   buildW r ((get_nonzero_weight_vector r (ofMatN
      ((ctx.Jpinv * ctx.J) * p.2 * (ctx.Jpinv * ctx.J) +
        (1 - ctx.Jpinv * ctx.J) * p.2 * (1 - ctx.Jpinv * ctx.J) -
        (1/(r.N : ℚ)) •
          (((ctx.Jpinv * ctx.J) * p.2 * (ctx.Jpinv * ctx.J) +
            (1 - ctx.Jpinv * ctx.J) * p.2 * (1 - ctx.Jpinv * ctx.J)) *
            onesCol r.N * onesRow r.N)))).map (fun x => |x|)))

/-- Stage 3 of the initializer: one bound-constrained optimization per
`(ζ, α, β, γ)` quadruple, warm-started from the previous result, recording
the pre-optimization decomposed losses.  Returns
`(w_all, loss rows, final w)`. -/
def refineLoop (r : EI_subspace_RNN) {K D : Nat} (ctx : RNNContext r K D)
    (A_target : MatQ K K) :
    List (ℚ × ℚ × ℚ × ℚ) → List ℚ →
      List (List ℚ) × List (ℚ × ℚ × ℚ) × List ℚ
  | [], w_old => ([], [], w_old)
  | q :: rest, w_old =>
    (ctx.minimizer
        (fun wf => loss_weights_target_LDS r ctx wf A_target q.1 q.2.1
          q.2.2.1 q.2.2.2)
        (fun wf => gradient_weights_target_LDS r ctx wf A_target q.1 q.2.1
          q.2.2.1 q.2.2.2) w_old ::
      (refineLoop r ctx A_target rest (ctx.minimizer
        (fun wf => loss_weights_target_LDS r ctx wf A_target q.1 q.2.1
          q.2.2.1 q.2.2.2)
        (fun wf => gradient_weights_target_LDS r ctx wf A_target q.1 q.2.1
          q.2.2.1 q.2.2.2) w_old)).1,
     check_loss_weights_LDS r ctx w_old A_target ::
      (refineLoop r ctx A_target rest (ctx.minimizer
        (fun wf => loss_weights_target_LDS r ctx wf A_target q.1 q.2.1
          q.2.2.1 q.2.2.2)
        (fun wf => gradient_weights_target_LDS r ctx wf A_target q.1 q.2.1
          q.2.2.1 q.2.2.2) w_old)).2.1,
     (refineLoop r ctx A_target rest (ctx.minimizer
        (fun wf => loss_weights_target_LDS r ctx wf A_target q.1 q.2.1
          q.2.2.1 q.2.2.2)
        (fun wf => gradient_weights_target_LDS r ctx wf A_target q.1 q.2.1
          q.2.2.1 q.2.2.2) w_old)).2.2)

/-- `generate_or_initialize_weights_from_dynamics_LDS` (name shortened):
stable fill, 50 alternating-projection iterations, then sequential
refinement; returns `(W0, W, loss trace, per-quadruple weight vectors)`. -/
def generate_or_init_weights_from_dynamics_LDS (r : EI_subspace_RNN)
    {K D : Nat} (ctx : RNNContext r K D) (A_target : MatQ K K)
    (R sqrtProd sqrtN : ℚ) (quads : List (ℚ × ℚ × ℚ × ℚ)) :
    MatQ r.N r.N × MatQ r.N r.N × List (ℚ × ℚ × ℚ) × List (List ℚ) :=
  (((altProjStep r ctx)^[50]
      (generate_stable_weights r R sqrtProd sqrtN,
       buildW r (generate_stable_weights r R sqrtProd sqrtN))).2,
   buildW r (refineLoop r ctx A_target quads
      ((altProjStep r ctx)^[50]
        (generate_stable_weights r R sqrtProd sqrtN,
         buildW r (generate_stable_weights r R sqrtProd sqrtN))).1).2.2,
   (refineLoop r ctx A_target quads
      ((altProjStep r ctx)^[50]
        (generate_stable_weights r R sqrtProd sqrtN,
         buildW r (generate_stable_weights r R sqrtProd sqrtN))).1).2.1 ++
     [check_loss_weights_LDS r ctx
       (refineLoop r ctx A_target quads
         ((altProjStep r ctx)^[50]
           (generate_stable_weights r R sqrtProd sqrtN,
            buildW r (generate_stable_weights r R sqrtProd sqrtN))).1).2.2
       A_target],
   (refineLoop r ctx A_target quads
      ((altProjStep r ctx)^[50]
        (generate_stable_weights r R sqrtProd sqrtN,
         buildW r (generate_stable_weights r R sqrtProd sqrtN))).1).1)

lemma altProjStep_fst_nonneg (r : EI_subspace_RNN) {K D : Nat}
    (ctx : RNNContext r K D) (p : List ℚ × MatQ r.N r.N) :
    ∀ x ∈ (altProjStep r ctx p).1, 0 ≤ x := by
  intro x hx
  unfold altProjStep at hx
  rw [List.mem_map] at hx
  obtain ⟨a, -, rfl⟩ := hx
  exact abs_nonneg a

lemma refineLoop_fst_nonneg (r : EI_subspace_RNN) {K D : Nat}
    (ctx : RNNContext r K D) (A_target : MatQ K K)
    (hMin : ∀ f g x0, ∀ x ∈ ctx.minimizer f g x0, 0 ≤ x) :
    ∀ (quads : List (ℚ × ℚ × ℚ × ℚ)) (w_old : List ℚ),
      ∀ row ∈ (refineLoop r ctx A_target quads w_old).1, ∀ x ∈ row, 0 ≤ x := by
  intro quads
  induction quads with
  | nil =>
    intro w_old row hrow
    simp [refineLoop] at hrow
  | cons q rest ih =>
    intro w_old row hrow
    rw [refineLoop] at hrow
    rcases List.mem_cons.mp hrow with rfl | h
    · exact hMin _ _ _
    · exact ih _ row h

lemma EMiter_w_nonneg (r : EI_subspace_RNN) {K D : Nat}
    (ctx : RNNContext r K D) (U T : Nat) (y : Nat → Nat → MatQ D 1)
    (alpha beta : ℚ)
    (hMin : ∀ f g x0, ∀ x ∈ ctx.minimizer f g x0, 0 ≤ x)
    (st : EMState K D) :
    ∀ x ∈ (EMiter r ctx U T y alpha beta st).w, 0 ≤ x := by
  intro x hx
  exact hMin _ _ _ x hx

lemma EMiter_iterate_w_nonneg (r : EI_subspace_RNN) {K D : Nat}
    (ctx : RNNContext r K D) (U T : Nat) (y : Nat → Nat → MatQ D 1)
    (alpha beta : ℚ)
    (hMin : ∀ f g x0, ∀ x ∈ ctx.minimizer f g x0, 0 ≤ x) :
    ∀ (k : Nat) (st : EMState K D), (∀ x ∈ st.w, 0 ≤ x) →
      ∀ x ∈ ((EMiter r ctx U T y alpha beta)^[k] st).w, 0 ≤ x := by
  intro k
  cases k with
  | zero =>
    intro st hst
    simpa using hst
  | succ k =>
    intro st hst
    rw [Function.iterate_succ_apply']
    exact EMiter_w_nonneg r ctx U T y alpha beta hMin _

/-- C9.  The weight vector stays entrywise non-negative through the whole
pipeline: the stable fill, the iterate after every alternating-projection
step, every refinement-stage output, and the final vector returned by
`fit_EM` — given that the external bound-constrained optimizer respects its
`[0, ∞)` bounds (`hMin`, the property scipy guarantees for `L-BFGS-B`) and
that the square-root inputs of the stable fill are non-negative. -/
theorem C9_weights_nonneg (r : EI_subspace_RNN) {K D : Nat}
    (ctx : RNNContext r K D)
    (hMin : ∀ f g x0, ∀ x ∈ ctx.minimizer f g x0, 0 ≤ x)
    (R sqrtProd sqrtN : ℚ) (hR : 0 ≤ R) (hP : 0 ≤ sqrtProd) (hN : 0 ≤ sqrtN)
    (A_target : MatQ K K) (quads : List (ℚ × ℚ × ℚ × ℚ)) (U T : Nat)
    (y : Nat → Nat → MatQ D 1) (init_w : List ℚ)
    (hInit : ∀ x ∈ init_w, 0 ≤ x) (init_b : Bool → MatQ K 1) (init_s : ℚ)
    (init_mu0 : MatQ K 1) (init_Q0 : MatQ K K) (init_C_ : MatQ D K)
    (init_d : MatQ D 1) (init_R : MatQ D D) (alpha beta : ℚ)
    (max_iter : Nat) :
    (∀ x ∈ generate_stable_weights r R sqrtProd sqrtN, 0 ≤ x) ∧
    (∀ k, ∀ x ∈ ((altProjStep r ctx)^[k]
        (generate_stable_weights r R sqrtProd sqrtN,
         buildW r (generate_stable_weights r R sqrtProd sqrtN))).1, 0 ≤ x) ∧
    (∀ row ∈ (generate_or_init_weights_from_dynamics_LDS r ctx A_target R
        sqrtProd sqrtN quads).2.2.2, ∀ x ∈ row, 0 ≤ x) ∧
    (∀ x ∈ (fit_EM r ctx U T y init_w init_b init_s init_mu0 init_Q0 init_C_
        init_d init_R alpha beta max_iter).2.w, 0 ≤ x) := by
  have hgen : ∀ x ∈ generate_stable_weights r R sqrtProd sqrtN, 0 ≤ x := by
    intro x hx
    unfold generate_stable_weights at hx
    rw [List.eq_of_mem_replicate hx]
    exact div_nonneg (div_nonneg hR hP) hN
  refine ⟨hgen, ?_, ?_, ?_⟩
  · intro k
    cases k with
    | zero => simpa using hgen
    | succ k =>
      rw [Function.iterate_succ_apply']
      exact altProjStep_fst_nonneg r ctx _
  · intro row hrow
    exact refineLoop_fst_nonneg r ctx A_target hMin quads _ row hrow
  · show ∀ x ∈ ((fit_EM_go r ctx U T y alpha beta max_iter
      (fit_EM_initState init_w init_b init_s init_mu0 init_Q0 init_C_ init_d
        init_R)).2).w, 0 ≤ x
    rw [fit_EM_go_spec]
    exact EMiter_iterate_w_nonneg r ctx U T y alpha beta hMin max_iter _ hInit

lemma getD_zero_mem {α : Type} (l : List α) (d : α) (h : ¬l = []) :
    l.getD 0 d ∈ l := by
  cases l with
  | nil => exact absurd rfl h
  | cons a t =>
    have hd : (a :: t).getD 0 d = a := rfl
    rw [hd]
    exact List.mem_cons_self a t

/-- External-collaborator bundle whose optimizer always returns a
non-negative (zero) vector, modelling the `[0, ∞)` bounds. -/
def ctxNN : RNNContext rEx 1 1 where
  J := Matrix.of ![![1, 0]]
  Jpinv := Matrix.of ![![1], ![0]]
  buildA := fun _ => 1
  minimizer := fun _ _ _ => List.replicate 4 0

/-- C9 witness: at a concrete instance all four pipeline stages yield
non-negative first entries, with every hypothesis (bound-respecting
optimizer, non-negative spectral radius and square roots, non-negative
initial vector) discharged. -/
theorem C9_weights_nonneg_witness :
    (∀ f g x0, ∀ x ∈ ctxNN.minimizer f g x0, 0 ≤ x) ∧
    ((0 : ℚ) ≤ 1) ∧ (∀ x ∈ ([1, 1, 1, 1] : List ℚ), 0 ≤ x) ∧
    (0 ≤ (generate_stable_weights rEx 1 1 1).getD 0 0) ∧
    (0 ≤ ((altProjStep rEx ctxNN)^[1]
        (generate_stable_weights rEx 1 1 1,
         buildW rEx (generate_stable_weights rEx 1 1 1))).1.getD 0 0) ∧
    (0 ≤ (((generate_or_init_weights_from_dynamics_LDS rEx ctxNN 1 1 1 1
        [(1, 1, 1, 0)]).2.2.2).getD 0 []).getD 0 0) ∧
    (0 ≤ (fit_EM rEx ctxNN 1 1 (fun _ _ => 0) [1, 1, 1, 1] (fun _ => 0) 1 0 1
        1 0 1 1 1 1).2.w.getD 0 0) := by
  have hMin : ∀ f g x0, ∀ x ∈ ctxNN.minimizer f g x0, 0 ≤ x := by
    intro f g x0 x hx
    rw [List.eq_of_mem_replicate hx]
  have h := C9_weights_nonneg rEx ctxNN hMin 1 1 1 (by norm_num) (by norm_num)
    (by norm_num) 1 [(1, 1, 1, 0)] 1 1 (fun _ _ => 0) [1, 1, 1, 1] (by decide)
    (fun _ => 0) 1 0 1 1 0 1 1 1 1
  refine ⟨hMin, by norm_num, by decide, ?_, ?_, ?_, ?_⟩
  · exact h.1 _ (getD_zero_mem _ _ (by decide))
  · exact h.2.1 1 _ (getD_zero_mem _ _ (by decide))
  · exact h.2.2.1 _ (getD_zero_mem _ _ (by decide)) _
      (getD_zero_mem _ _ (by decide))
  · exact h.2.2.2 _ (getD_zero_mem _ _ (by decide))
